import Mathlib

/-!
Verification development for the skill-package structural analyzer
(`analyze_skill.py`).  The Python source is shallowly embedded: document
text is `List Char`, the filesystem facts the script consults are fields
of a `Package` structure, and the external YAML library
(`yaml.safe_load`) is an explicit function parameter producing a `Yaml`
value or a parser-error message.  Record text fields are `String`.
-/

namespace SkillAnalyzer

/-! ### Basic text utilities (Python string/regex primitives) -/

/-- One step of Python's `s = s[s.find("\n") + 1:]`: drop everything up to and
including the first newline; `none` when the string has no newline
(Python `find` returning `-1`). -/
def dropAfterNewline : List Char → Option (List Char)
  | [] => none
  | c :: rest => if c = '\n' then some rest else dropAfterNewline rest

theorem dropAfterNewline_length :
    ∀ s r : List Char, dropAfterNewline s = some r → r.length < s.length := by
  intro s
  induction s with
  | nil => intro r h; simp [dropAfterNewline] at h
  | cons c rest ih =>
    intro r h
    simp only [dropAfterNewline] at h
    by_cases hc : c = '\n'
    · simp [hc] at h; simp [← h, List.length_cons, Nat.lt_succ_self]
    · simp [hc] at h
      exact Nat.lt_trans (ih r h) (Nat.lt_succ_self _)

/-- The `while stripped.startswith("#")` loop of `parse_frontmatter`
(also re-run at the body-derivation site): repeatedly discard leading
comment lines; a final `#` line without a newline is kept (the loop
breaks when `find` returns `-1`).  Structural recursion on a fuel
counter; by `dropAfterNewline_length` each iteration shortens the list,
so fuel equal to the length is exact: fuel can only run out on `[]`,
where the loop guard fails anyway. -/
def stripCommentsGo : Nat → List Char → List Char
  | 0, s => s
  | fuel + 1, s =>
    if s.head? = some '#' then
      match dropAfterNewline s with
      | none => s
      | some r => stripCommentsGo fuel r
    else s

def stripComments (s : List Char) : List Char := stripCommentsGo s.length s

/-- First index at which `pat` occurs in `s` (Python `str.find` /
leftmost regex match of a literal), `none` when absent. -/
def findSub (pat : List Char) : List Char → Option Nat
  | [] => if pat.isEmpty then some 0 else none
  | c :: rest =>
    if pat.isPrefixOf (c :: rest) then some 0
    else (findSub pat rest).map (· + 1)

theorem findSub_bound :
    ∀ (s : List Char) (pat : List Char) (i : Nat),
      findSub pat s = some i → i + pat.length ≤ s.length := by
  intro s
  induction s with
  | nil =>
    intro pat i h
    simp only [findSub, List.isEmpty_iff] at h
    by_cases hp : pat = []
    · simp [hp] at h ⊢; omega
    · simp [hp] at h
  | cons c rest ih =>
    intro pat i h
    simp only [findSub] at h
    by_cases hpre : pat.isPrefixOf (c :: rest)
    · simp [hpre] at h
      have := List.IsPrefix.length_le (List.isPrefixOf_iff_prefix.mp hpre)
      simp [List.length_cons] at this ⊢
      omega
    · simp [hpre, Option.map_eq_some'] at h
      obtain ⟨j, hj, rfl⟩ := h
      have := ih pat j hj
      simp [List.length_cons]
      omega

/-- Split a character list on a separator character; mirrors the group
structure induced by the regex `^[a-z0-9]+(-[a-z0-9]+)*$` ("groups
separated by `-`").  Never returns `[]`. -/
def splitOnChar (sep : Char) : List Char → List (List Char)
  | [] => [[]]
  | c :: rest =>
    let r := splitOnChar sep rest
    if c = sep then [] :: r
    else
      match r with
      | g :: gs => (c :: g) :: gs
      | [] => [[c]]

theorem splitOnChar_ne_nil (sep : Char) : ∀ s : List Char, splitOnChar sep s ≠ [] := by
  intro s
  induction s with
  | nil => simp [splitOnChar]
  | cons c rest ih =>
    simp only [splitOnChar]
    by_cases hc : c = sep
    · simp [hc]
    · simp only [hc, if_false]
      cases splitOnChar sep rest with
      | nil => simp
      | cons g gs => simp

/-! ### Python line/word primitives -/

/-- Python line-boundary characters recognized by `str.splitlines`. -/
def isLineBreakChar (c : Char) : Bool :=
  c = '\n' || c = '\r' || c = '\x0b' || c = '\x0c' ||
  c = '\x1c' || c = '\x1d' || c = '\x1e' || c = '\x85' ||
  c = '\u2028' || c = '\u2029'

/-- Drop the first line together with its terminating boundary
(`\r\n` counts as a single boundary), as `str.splitlines` does. -/
def dropLine : List Char → List Char
  | [] => []
  | c :: rest =>
    if c = '\r' ∧ rest.head? = some '\n' then rest.tail
    else if isLineBreakChar c then rest else dropLine rest

theorem dropLine_length : ∀ s : List Char, s ≠ [] → (dropLine s).length < s.length := by
  intro s
  induction s with
  | nil => intro h; simp at h
  | cons c rest ih =>
    intro _
    simp only [dropLine]
    by_cases h1 : c = '\r' ∧ rest.head? = some '\n'
    · rw [if_pos h1]
      simp [List.length_tail]
      omega
    · rw [if_neg h1]
      by_cases h2 : isLineBreakChar c = true
      · simp [h2]
      · rw [if_neg h2]
        cases rest with
        | nil => simp [dropLine]
        | cons x xs => exact Nat.lt_trans (ih (by simp)) (Nat.lt_succ_self _)

/-- `len(content.splitlines())`: the number of lines of a document.
Fuel equal to the length is exact (`dropLine_length`): fuel can only
run out on `[]`, which has zero lines. -/
def splitlinesCountGo : Nat → List Char → Nat
  | 0, _ => 0
  | fuel + 1, s =>
    match s with
    | [] => 0
    | c :: rest => 1 + splitlinesCountGo fuel (dropLine (c :: rest))

def splitlinesCount (s : List Char) : Nat := splitlinesCountGo s.length s

/-- Python whitespace characters for argument-less `str.split`. -/
def isPySpace (c : Char) : Bool :=
  c = ' ' || c = '\t' || c = '\n' || c = '\r' || c = '\x0b' || c = '\x0c' ||
  c = '\x1c' || c = '\x1d' || c = '\x1e' || c = '\x1f' || c = '\x85' ||
  c = '\xa0' || c = '\u2028' || c = '\u2029'

/-- Word-count state machine: `len(body.split())` counts maximal runs of
non-whitespace characters.  The flag records whether the scanner is
inside a word. -/
def wordCountAux : Bool → List Char → Nat
  | _, [] => 0
  | inWord, c :: rest =>
    if isPySpace c then wordCountAux false rest
    else (if inWord then 0 else 1) + wordCountAux true rest

/-- `len(body.split())`. -/
def wordCount (s : List Char) : Nat := wordCountAux false s

/-! ### YAML value model

The script calls the external library function `yaml.safe_load`; it is
not part of this repository, so its output is modelled by the `Yaml`
value type below (mappings restricted to string keys, the front-matter
data model of the spec) and the parser itself is passed in as a
function returning either a value or a parser-error message. -/

inductive Yaml where
  | nul : Yaml
  | bool : Bool → Yaml
  | int : Int → Yaml
  | str : String → Yaml
  | list : List Yaml → Yaml
  | dict : List (String × Yaml) → Yaml

/-- `isinstance(fm, dict)`. -/
def Yaml.isDict : Yaml → Bool
  | .dict _ => true
  | _ => false

/-- Python truthiness (`if not name:` / `if not desc:`) of a YAML-loaded
value: `None`, `False`, `0`, `""`, `[]` and `{}` are falsy. -/
def pyTruthy : Yaml → Bool
  | .nul => false
  | .bool b => b
  | .int n => n != 0
  | .str s => s ≠ ""
  | .list xs => !xs.isEmpty
  | .dict xs => !xs.isEmpty

def quoteChar : Char := Char.ofNat 39

def dquoteChar : Char := Char.ofNat 34

def backslashChar : Char := Char.ofNat 92

/-- Escape a character for Python `repr` of a string with quote
character `q` (backslash, the quote, and common control characters). -/
def reprEscape (q : Char) (c : Char) : List Char :=
  if c = backslashChar then [backslashChar, backslashChar]
  else if c = q then [backslashChar, q]
  else if c = '\n' then [backslashChar, 'n']
  else if c = '\r' then [backslashChar, 'r']
  else if c = '\t' then [backslashChar, 't']
  else [c]

/-- Python `repr` of a string: single-quoted, switching to double quotes
when the text contains a single quote but no double quote. -/
def strRepr (s : String) : String :=
  let cs := s.toList
  if cs.contains quoteChar && !(cs.contains dquoteChar) then
    String.mk (dquoteChar :: cs.foldr (fun c acc => reprEscape dquoteChar c ++ acc) [dquoteChar])
  else
    String.mk (quoteChar :: cs.foldr (fun c acc => reprEscape quoteChar c ++ acc) [quoteChar])

mutual

/-- Python `repr` of a YAML-loaded value (used inside `str` of
containers). -/
def pyRepr : Yaml → String
  | .nul => "None"
  | .bool true => "True"
  | .bool false => "False"
  | .int n => toString n
  | .str s => strRepr s
  | .list xs => "[" ++ pyReprSeq xs ++ "]"
  | .dict xs => "\x7b" ++ pyReprMap xs ++ "\x7d"

/-- Comma-joined `repr`s of the elements of a Python list. -/
def pyReprSeq : List Yaml → String
  | [] => ""
  | [x] => pyRepr x
  | x :: y :: rest => pyRepr x ++ ", " ++ pyReprSeq (y :: rest)

/-- Comma-joined `key: value` `repr`s of the items of a Python dict. -/
def pyReprMap : List (String × Yaml) → String
  | [] => ""
  | [(k, v)] => strRepr k ++ ": " ++ pyRepr v
  | (k, v) :: y :: rest => strRepr k ++ ": " ++ pyRepr v ++ ", " ++ pyReprMap (y :: rest)

end

/-- Python `str()` of a YAML-loaded value (`str(name)` / `str(desc)`):
identity on strings, `None`/`True`/`False`/decimal for scalars, `repr`
for containers. -/
def pyStr : Yaml → String
  | .str s => s
  | .nul => "None"
  | .bool true => "True"
  | .bool false => "False"
  | .int n => toString n
  | .list xs => pyRepr (.list xs)
  | .dict xs => pyRepr (.dict xs)

/-! ### The kebab-case name pattern

`re.match(r"^[a-z0-9]+(-[a-z0-9]+)*$", s)`: one or more groups of
lowercase-alphanumeric characters separated by single hyphens.  Python's
`$` also matches just before a single trailing newline, which
`pyMatchKebab` reproduces. -/

/-- Character class `[a-z0-9]`. -/
def isKebabChar (c : Char) : Bool :=
  ('a' ≤ c && c ≤ 'z') || ('0' ≤ c && c ≤ '9')

/-- Whole-string match of `[a-z0-9]+(-[a-z0-9]+)*`: every
hyphen-separated group is nonempty and lowercase-alphanumeric. -/
def kebabCore (s : List Char) : Bool :=
  (splitOnChar '-' s).all (fun g => !g.isEmpty && g.all isKebabChar)

/-- `re.match(r"^[a-z0-9]+(-[a-z0-9]+)*$", s)` is truthy: the core
pattern matches the whole string, or the whole string minus a single
trailing newline (Python `$` semantics). -/
def pyMatchKebab (s : List Char) : Bool :=
  kebabCore s ||
    (s.getLast? = some '\n' && kebabCore s.dropLast)

/-! ### Sorting and joining (Python `sorted`, `", ".join`, `set`) -/

/-- Python string `<`: lexicographic comparison by code point. -/
def lexLt : List Char → List Char → Bool
  | _, [] => false
  | [], _ :: _ => true
  | a :: as, b :: bs => if a < b then true else if b < a then false else lexLt as bs

def insertSorted (x : List Char) : List (List Char) → List (List Char)
  | [] => [x]
  | y :: ys => if lexLt y x then y :: insertSorted x ys else x :: y :: ys

/-- Python `sorted` on a list of strings (insertion sort, ascending). -/
def sortStrs : List (List Char) → List (List Char)
  | [] => []
  | x :: xs => insertSorted x (sortStrs xs)

/-- Keep the first occurrence of each element (Python `set` built from a
list, read back in a deterministic first-seen order; for the checks it
is only ever used under `sorted` or for membership, where the order is
irrelevant).  Fuel equal to the length is exact (`filter` never grows a
list): fuel can only run out on `[]`. -/
def dedupFirstGo {α : Type} [DecidableEq α] : Nat → List α → List α
  | 0, _ => []
  | fuel + 1, l =>
    match l with
    | [] => []
    | x :: xs => x :: dedupFirstGo fuel (xs.filter (fun y => decide (y ≠ x)))

def dedupFirst {α : Type} [DecidableEq α] (l : List α) : List α :=
  dedupFirstGo l.length l

/-- `", ".join(strs)`. -/
def joinComma (strs : List String) : String := String.intercalate ", " strs

/-- Python `sorted` on `String`s. -/
def sortStrings (l : List String) : List String :=
  (sortStrs (l.map String.toList)).map String.mk

/-! ### Front-matter extraction (`parse_frontmatter`, lines 15-40) -/

def dash3 : List Char := '-' :: '-' :: '-' :: []

def dash3nl : List Char := '-' :: '-' :: '-' :: '\n' :: []

def nlDash3 : List Char := '\n' :: '-' :: '-' :: '-' :: []

/-- The capture group of `re.match(r"^---\n(.*?)\n---", stripped, DOTALL)`
applied to the comment-stripped document: the text between the opening
`---` line and the first following `\n---`.  `none` when the regex does
not match. -/
def fmBlock (content : List Char) : Option (List Char) :=
  let stripped := stripComments content
  if dash3nl.isPrefixOf stripped then
    (findSub nlDash3 (stripped.drop 4)).map (fun j => (stripped.drop 4).take j)
  else none

/-- `parse_frontmatter(content)` with the YAML library abstracted as
`yamlParse` (`yaml.safe_load`: a value on success, the parser's error
message on a `YAMLError`).  Returns the `(fm, err)` pair of the source:
either `(mapping, none)` or `(none, error description)`. -/
def parse_frontmatter (yamlParse : List Char → Except String Yaml)
    (content : List Char) : Option (List (String × Yaml)) × Option String :=
  let stripped := stripComments content
  if ¬ dash3.isPrefixOf stripped then (none, some "No YAML frontmatter found")
  else
    match fmBlock content with
    | none => (none, some "Invalid frontmatter format")
    | some block =>
      match yamlParse block with
      | .error e => (none, some ("Invalid YAML: " ++ e))
      | .ok v =>
        match v with
        | .dict d => (some d, none)
        | _ => (none, some "Frontmatter must be a YAML dictionary")

/-- The document body (lines 113-121): strip leading comment lines, then
`re.match(r"^---\n.*?\n---\n?(.*)", body_content, DOTALL)`; its capture
is everything after the front-matter block and one optional newline.
When the regex does not match, the body is the entire raw document. -/
def bodyOf (content : List Char) : List Char :=
  let bc := stripComments content
  if dash3nl.isPrefixOf bc then
    match findSub nlDash3 (bc.drop 4) with
    | some j =>
      let after := (bc.drop 4).drop (j + 4)
      match after with
      | '\n' :: rest => rest
      | _ => after
    | none => content
  else content

/-! ### Markdown link extraction (`extract_markdown_links`, lines 43-47) -/

def backtickChar : Char := Char.ofNat 96

def fence3 : List Char := [backtickChar, backtickChar, backtickChar]

theorem fence3_length : fence3.length = 3 := rfl

/-- `re.sub(r"```.*?```", "", content, DOTALL)`: repeatedly delete the
leftmost fenced code block (opening fence, minimal interior, closing
fence); an unmatched opening fence is left in place.  Fuel equal to the
length is exact (`findSub_bound`: each deletion consumes at least six
characters): fuel can only run out on `[]`, where no fence matches. -/
def removeFencesGo : Nat → List Char → List Char
  | 0, s => s
  | fuel + 1, s =>
    match findSub fence3 s with
    | none => s
    | some i =>
      let after := s.drop (i + 3)
      match findSub fence3 after with
      | none => s
      | some j => s.take i ++ removeFencesGo fuel (after.drop (j + 3))

def removeFences (s : List Char) : List Char := removeFencesGo s.length s

/-- One attempted match of `\[([^\]]*)\]\(([^)]+)\)` anchored at the
current position: `(text, href, remainder)` on success.  `takeUntil`
plays the greedy character classes (everything up to the first
delimiter, which the class cannot contain). -/
def takeUntil (stop : Char) : List Char → Option (List Char × List Char)
  | [] => none
  | c :: rest =>
    if c = stop then some ([], rest)
    else (takeUntil stop rest).map (fun p => (c :: p.1, p.2))

theorem takeUntil_length :
    ∀ (s : List Char) (stop : Char) (a b : List Char),
      takeUntil stop s = some (a, b) → a.length + b.length + 1 = s.length := by
  intro s
  induction s with
  | nil => intro stop a b h; simp [takeUntil] at h
  | cons c rest ih =>
    intro stop a b h
    simp only [takeUntil] at h
    by_cases hc : c = stop
    · simp [hc] at h
      simp [← h.1, ← h.2]
    · rw [if_neg hc] at h
      cases htu : takeUntil stop rest with
      | none => rw [htu] at h; simp at h
      | some p =>
        rw [htu] at h
        simp at h
        have hlen := ih stop p.1 p.2 (by rw [htu])
        rw [← h.1, ← h.2]
        simp [List.length_cons]
        omega

def tryLink (s : List Char) : Option (List Char × List Char × List Char) :=
  if s.head? = some '[' then
    match takeUntil ']' s.tail with
    | none => none
    | some (text, after1) =>
      if after1.head? = some '(' then
        match takeUntil ')' after1.tail with
        | none => none
        | some (href, after2) =>
          if href.isEmpty then none else some (text, href, after2)
      else none
  else none

theorem tryLink_length :
    ∀ (s t h r : List Char), tryLink s = some (t, h, r) → r.length < s.length := by
  intro s t h r hs
  simp only [tryLink] at hs
  by_cases hhd : s.head? = some '['
  · rw [if_pos hhd] at hs
    obtain ⟨c, rest, rfl⟩ : ∃ c rest, s = c :: rest := by
      cases s with
      | nil => simp at hhd
      | cons c rest => exact ⟨c, rest, rfl⟩
    cases h1 : takeUntil ']' (c :: rest).tail with
    | none => rw [h1] at hs; simp at hs
    | some p =>
      obtain ⟨text, after1⟩ := p
      rw [h1] at hs
      simp only at hs
      have len1 := takeUntil_length rest ']' text after1 h1
      by_cases hh : after1.head? = some '('
      · rw [if_pos hh] at hs
        cases h2 : takeUntil ')' after1.tail with
        | none => rw [h2] at hs; simp at hs
        | some q =>
          obtain ⟨href, after2⟩ := q
          rw [h2] at hs
          simp only at hs
          have len2 := takeUntil_length after1.tail ')' href after2 h2
          by_cases he : href.isEmpty
          · rw [if_pos he] at hs; simp at hs
          · rw [if_neg he] at hs
            simp at hs
            obtain ⟨-, -, hr⟩ := hs
            subst hr
            have htail : after1.tail.length ≤ after1.length := by
              cases after1 <;> simp
            simp [List.length_cons] at len1 ⊢
            omega
      · rw [if_neg hh] at hs; simp at hs
  · rw [if_neg hhd] at hs; simp at hs

/-- `re.findall(r"\[([^\]]*)\]\(([^)]+)\)", stripped)`: scan left to
right; at each position emit the anchored match and resume after it, or
advance one character.  Fuel equal to the length is exact
(`tryLink_length`: a match consumes at least one character): fuel can
only run out on `[]`, where the scan ends anyway. -/
def findLinksGo : Nat → List Char → List (List Char × List Char)
  | 0, _ => []
  | fuel + 1, s =>
    match s with
    | [] => []
    | c :: rest =>
      match tryLink (c :: rest) with
      | some (t, h, r) => (t, h) :: findLinksGo fuel r
      | none => findLinksGo fuel rest

def findLinks (s : List Char) : List (List Char × List Char) :=
  findLinksGo s.length s

/-- `extract_markdown_links(content)`: links outside fenced code
blocks. -/
def extract_markdown_links (content : List Char) : List (List Char × List Char) :=
  findLinks (removeFences content)

/-! ### Check records (`record(section, check, status, detail)`) -/

inductive Status where
  | PASS : Status
  | WARN : Status
  | FAIL : Status
  | INFO : Status
deriving DecidableEq, Repr

def statusStr : Status → String
  | .PASS => "PASS"
  | .WARN => "WARN"
  | .FAIL => "FAIL"
  | .INFO => "INFO"

/-- One `(section, check, status, detail)` tuple appended by `record`. -/
structure CheckRecord where
  sec : String
  check : String
  status : Status
  detail : String
deriving DecidableEq, Repr

/-- A single-quote character as a string (for Python messages that quote
the offending value). -/
def sq : String := String.mk [quoteChar]

/-! ### Front-matter field validators (lines 77-104) -/

def ALLOWED : List String :=
  ["name", "description", "license", "allowed-tools", "metadata", "compatibility"]

/-- Unexpected-keys check: `set(fm.keys()) - ALLOWED`, sorted and
comma-joined in the WARN detail. -/
def keysRecord (fm : List (String × Yaml)) : CheckRecord :=
  let unexpected := (dedupFirst (fm.map (fun kv => kv.1.toList))).filter
    (fun k => !(ALLOWED.map String.toList).contains k)
  if unexpected.isEmpty then ⟨"FRONTMATTER", "No unexpected keys", .PASS, ""⟩
  else
    ⟨"FRONTMATTER", "No unexpected keys", .WARN,
      "Unexpected: " ++ joinComma ((sortStrs unexpected).map String.mk)⟩

/-- The record for `name = fm.get("name", "")` (lines 84-92). -/
def nameRecord (fm : List (String × Yaml)) : CheckRecord :=
  let name := (List.lookup "name" fm).getD (.str "")
  if ¬ pyTruthy name then
    ⟨"FRONTMATTER", "Name present", .FAIL, "Missing " ++ sq ++ "name" ++ sq ++ " field"⟩
  else
    let s := pyStr name
    if ¬ pyMatchKebab s.toList then
      ⟨"FRONTMATTER", "Name format", .FAIL, sq ++ s ++ sq ++ " is not valid kebab-case"⟩
    else if s.length > 64 then
      ⟨"FRONTMATTER", "Name length", .FAIL, toString s.length ++ " chars (max 64)"⟩
    else ⟨"FRONTMATTER", "Name valid", .PASS, s⟩

/-- The record for `desc = fm.get("description", "")` (lines 94-104). -/
def descRecord (fm : List (String × Yaml)) : CheckRecord :=
  let desc := (List.lookup "description" fm).getD (.str "")
  if ¬ pyTruthy desc then
    ⟨"FRONTMATTER", "Description present", .FAIL,
      "Missing " ++ sq ++ "description" ++ sq ++ " field"⟩
  else
    let descLen := (pyStr desc).length
    if descLen < 50 then
      ⟨"FRONTMATTER", "Description length", .WARN, toString descLen ++ " chars (recommend >= 50)"⟩
    else if descLen > 1024 then
      ⟨"FRONTMATTER", "Description length", .FAIL, toString descLen ++ " chars (max 1024)"⟩
    else ⟨"FRONTMATTER", "Description length", .PASS, toString descLen ++ " chars"⟩

/-- The FRONTMATTER section (lines 69-104): a single FAIL on a parse
error, otherwise PASS followed by the three field checks. -/
def frontmatterRecords (yamlParse : List Char → Except String Yaml)
    (content : List Char) : List CheckRecord :=
  match parse_frontmatter yamlParse content with
  | (_, some e) => [⟨"FRONTMATTER", "Valid frontmatter", .FAIL, e⟩]
  | (fmOpt, none) =>
    let fm := fmOpt.getD []
    [⟨"FRONTMATTER", "Valid frontmatter", .PASS, ""⟩,
     keysRecord fm, nameRecord fm, descRecord fm]

/-! ### Size validators (lines 106-126) -/

def lineCountRecord (content : List Char) : CheckRecord :=
  let n := splitlinesCount content
  if n > 500 then
    ⟨"SIZE", "SKILL.md line count", .WARN, toString n ++ " lines (recommend <= 500)"⟩
  else ⟨"SIZE", "SKILL.md line count", .PASS, toString n ++ " lines"⟩

def wordCountRecord (content : List Char) : CheckRecord :=
  let n := wordCount (bodyOf content)
  if n > 5000 then
    ⟨"SIZE", "Body word count", .WARN, toString n ++ " words (recommend <= 5000)"⟩
  else ⟨"SIZE", "Body word count", .PASS, toString n ++ " words"⟩

/-! ### File-structure validator (lines 128-153)

`os.walk` with hidden files and directories excluded is a filesystem
primitive; its result (the `all_files` list of relative paths) is a
field of `Package`.  The processing of that list is embedded. -/

/-- `Path(f).parts`: the path components, with empty and `.` components
normalized away. -/
def pathParts (f : List Char) : List (List Char) :=
  (splitOnChar '/' f).filter (fun p => !p.isEmpty && p != ['.'])

/-- `os.path.basename`: the text after the last slash. -/
def osBasename (f : List Char) : List Char :=
  ((splitOnChar '/' f).getLast?).getD []

def EXTRANEOUS : List (List Char) :=
  (["README.md", "INSTALLATION_GUIDE.md", "QUICK_REFERENCE.md",
    "CHANGELOG.md", "CONTRIBUTING.md", "SETUP.md"]).map String.toList

def fileRecords (allFiles : List (List Char)) : List CheckRecord :=
  let dirsPresent := dedupFirst (allFiles.filterMap (fun f =>
    match pathParts f with
    | p0 :: _ :: _ => some p0
    | _ => none))
  let foundExtraneous := allFiles.filter (fun f => EXTRANEOUS.contains (osBasename f))
  [⟨"FILES", "Directories", .INFO,
      if dirsPresent.isEmpty then "none"
      else joinComma ((sortStrs dirsPresent).map String.mk)⟩,
   ⟨"FILES", "Total files", .INFO, toString allFiles.length⟩,
   if foundExtraneous.isEmpty then ⟨"FILES", "Extraneous files", .PASS, "none detected"⟩
   else ⟨"FILES", "Extraneous files", .WARN, joinComma (foundExtraneous.map String.mk)⟩]

/-! ### Link-integrity validator (lines 155-174) -/

/-- External hrefs: `href.startswith(("http://", "https://", "#", "mailto:"))`. -/
def isExternalHref (h : List Char) : Bool :=
  "http://".toList.isPrefixOf h || "https://".toList.isPrefixOf h ||
  ['#'].isPrefixOf h || "mailto:".toList.isPrefixOf h

/-- `relative_links`: extracted links whose href is not external. -/
def relativeLinks (body : List Char) : List (List Char × List Char) :=
  (extract_markdown_links body).filter (fun l => !(isExternalHref l.2))

/-- The broken hrefs among the relative links, in order of appearance
(`(skill_path / href).exists()` is the `hrefExists` field of
`Package`). -/
def brokenOf (hrefExists : List Char → Bool)
    (rel : List (List Char × List Char)) : List (List Char) :=
  (rel.filter (fun l => !hrefExists l.2)).map (fun l => l.2)

def linkRecord (hrefExists : List Char → Bool) (body : List Char) : CheckRecord :=
  let rel := relativeLinks body
  if rel.isEmpty then ⟨"REFERENCES", "Link integrity", .INFO, "No internal links found"⟩
  else
    let valid := (rel.filter (fun l => hrefExists l.2)).length
    let broken := brokenOf hrefExists rel
    if broken.isEmpty then
      ⟨"REFERENCES", "Link integrity", .PASS,
        toString valid ++ "/" ++ toString rel.length ++ " links valid"⟩
    else ⟨"REFERENCES", "Link integrity", .FAIL,
        "Broken: " ++ joinComma (broken.map String.mk)⟩

/-! ### Reference-directory validator (lines 176-189) -/

/-- A directory entry as `iterdir` reports it (`execBit` is the execute
permission consulted only for scripts). -/
structure DirEntry where
  name : List Char
  isFile : Bool
  execBit : Bool

def isHidden (n : List Char) : Bool := n.head? = some '.'

/-- Direct non-hidden files of a listed directory
(`[f.name for f in d.iterdir() if f.is_file() and not f.name.startswith(".")]`). -/
def visibleFiles (entries : List DirEntry) : List (List Char) :=
  (entries.filter (fun e => e.isFile && !isHidden e.name)).map (fun e => e.name)

def relHrefs (rel : List (List Char × List Char)) : List (List Char) :=
  rel.map (fun l => l.2)

def refsDirPath : List Char := "references/".toList

/-- `Path(h).name`: the last path component, with empty and `.`
components normalized away. -/
def pathName (h : List Char) : List Char := (pathParts h).getLast?.getD []

/-- `linked_basenames`: base names of relative hrefs under
`references/`. -/
def linkedBasenames (rel : List (List Char × List Char)) : List (List Char) :=
  ((relHrefs rel).filter (fun h => refsDirPath.isPrefixOf h)).map pathName

/-- `unlinked` (lines 182-183): visible reference files whose base name
is not among the linked base names and whose literal `references/<f>`
path is not among the relative hrefs. -/
def unlinkedOf (entries : List DirEntry)
    (rel : List (List Char × List Char)) : List (List Char) :=
  (visibleFiles entries).filter (fun f =>
    !(linkedBasenames rel).contains f && !((relHrefs rel).contains (refsDirPath ++ f)))

def refRecords (refsDir : Option (List DirEntry))
    (rel : List (List Char × List Char)) : List CheckRecord :=
  match refsDir with
  | none => [⟨"REFERENCES", "References directory", .INFO, "No references/ directory"⟩]
  | some entries =>
    let unlinked := unlinkedOf entries rel
    if unlinked.isEmpty then [⟨"REFERENCES", "All references linked", .PASS, ""⟩]
    else [⟨"REFERENCES", "Unlinked reference files", .WARN,
            joinComma (unlinked.map String.mk)⟩]

/-! ### Scripts validator (lines 191-202) -/

def scriptRecords (scriptsDir : Option (List DirEntry)) : List CheckRecord :=
  match scriptsDir with
  | none => [⟨"SCRIPTS", "Scripts directory", .INFO, "No scripts/ directory"⟩]
  | some entries =>
    let scripts := entries.filter (fun e => e.isFile && !isHidden e.name)
    ⟨"SCRIPTS", "Scripts found", .INFO, toString scripts.length⟩ ::
    scripts.map (fun e =>
      if e.execBit then ⟨"SCRIPTS", String.mk e.name ++ " executable", .PASS, ""⟩
      else ⟨"SCRIPTS", String.mk e.name ++ " executable", .WARN, "Not marked executable"⟩)

/-! ### The analyzed package and `analyze_skill` (lines 50-204)

The filesystem facts the script reads are fields: whether `SKILL.md`
exists, its text, the `os.walk` file inventory (relative paths, hidden
entries already excluded by the walk), existence of a path resolved
against the package root, the `references/` and `scripts/` listings
(`none` models a missing directory or a non-directory), and the
abstract YAML parser. -/

structure Package where
  hasSkillMd : Bool
  content : List Char
  yamlParse : List Char → Except String Yaml
  allFiles : List (List Char)
  hrefExists : List Char → Bool
  refsDir : Option (List DirEntry)
  scriptsDir : Option (List DirEntry)

/-- `analyze_skill(skill_path)`: the ordered record list. -/
def analyze_skill (p : Package) : List CheckRecord :=
  if ¬ p.hasSkillMd then
    [⟨"STRUCTURE", "SKILL.md exists", .FAIL, "SKILL.md not found"⟩]
  else
    ⟨"STRUCTURE", "SKILL.md exists", .PASS, ""⟩ ::
    (frontmatterRecords p.yamlParse p.content ++
      ([lineCountRecord p.content, wordCountRecord p.content] ++
        (fileRecords p.allFiles ++
          (linkRecord p.hrefExists (bodyOf p.content) ::
            (refRecords p.refsDir (relativeLinks (bodyOf p.content)) ++
              scriptRecords p.scriptsDir)))))

/-! ### Reporter (`format_report`, lines 207-236) -/

/-- One rendered record line: `  <check>: <status>[: <detail>]`. -/
def renderLine (r : CheckRecord) : String :=
  "  " ++ r.check ++ ": " ++ statusStr r.status ++
    (if r.detail = "" then "" else ": " ++ r.detail)

/-- The body lines of the report: the loop emits a section-header line
(preceded by a blank line except for the first section) whenever the
section differs from `current_section`, then the record line. -/
def sectionLines : Option String → List CheckRecord → List String
  | _, [] => []
  | cur, r :: rs =>
    (if cur = some r.sec then [renderLine r]
     else
       match cur with
       | none => [r.sec, renderLine r]
       | some _ => ["", r.sec, renderLine r]) ++ sectionLines (some r.sec) rs

/-- The `(pass_count, warn_count, fail_count)` accumulation of the
reporter loop. -/
def tallyOf : List CheckRecord → Nat × Nat × Nat
  | [] => (0, 0, 0)
  | r :: rs =>
    let t := tallyOf rs
    match r.status with
    | .PASS => (t.1 + 1, t.2.1, t.2.2)
    | .WARN => (t.1, t.2.1 + 1, t.2.2)
    | .FAIL => (t.1, t.2.1, t.2.2 + 1)
    | .INFO => t

/-- The summary line `SUMMARY: {fail} FAIL, {warn} WARN, {pass} PASS`. -/
def summaryLine (results : List CheckRecord) : String :=
  let t := tallyOf results
  "SUMMARY: " ++ toString t.2.2 ++ " FAIL, " ++ toString t.2.1 ++ " WARN, " ++
    toString t.1 ++ " PASS"

/-- The report line list (`skillName` models `Path(skill_path).name`). -/
def format_report_lines (skillName : String) (results : List CheckRecord) : List String :=
  ("=== Skill Analysis: " ++ skillName ++ " ===") :: "" ::
    (sectionLines none results ++ ["", summaryLine results])

/-- `format_report(skill_path, results)`: the joined report text. -/
def format_report (skillName : String) (results : List CheckRecord) : String :=
  String.intercalate "\n" (format_report_lines skillName results)

/-! ### Supporting lemmas -/

theorem fmBlock_dash3 (content : List Char) (b : List Char)
    (h : fmBlock content = some b) :
    dash3.isPrefixOf (stripComments content) = true := by
  simp only [fmBlock] at h
  by_cases hp : dash3nl.isPrefixOf (stripComments content)
  · have h1 : dash3 <+: dash3nl := ⟨['\n'], rfl⟩
    have h2 : dash3nl <+: stripComments content := List.isPrefixOf_iff_prefix.mp hp
    exact List.isPrefixOf_iff_prefix.mpr (h1.trans h2)
  · simp [hp] at h

/-! ### Claim theorems -/

/-- C1: when `SKILL.md` does not exist, `analyze_skill` returns exactly
the single record `(STRUCTURE, "SKILL.md exists", FAIL, "SKILL.md not
found")` and runs no further checks, and formatting that result ends in
the summary line `SUMMARY: 1 FAIL, 0 WARN, 0 PASS`. -/
theorem c1_missing_skillmd (p : Package) (skillName : String)
    (h : p.hasSkillMd = false) :
    analyze_skill p =
      [⟨"STRUCTURE", "SKILL.md exists", .FAIL, "SKILL.md not found"⟩] ∧
    (format_report_lines skillName (analyze_skill p)).getLast? =
      some "SUMMARY: 1 FAIL, 0 WARN, 0 PASS" := by
  have h1 : analyze_skill p =
      [⟨"STRUCTURE", "SKILL.md exists", .FAIL, "SKILL.md not found"⟩] := by
    simp [analyze_skill, h]
  exact ⟨h1, by rw [h1]; rfl⟩

def emptyDirPackage : Package :=
  { hasSkillMd := false
    content := []
    yamlParse := fun _ => .error ""
    allFiles := []
    hrefExists := fun _ => false
    refsDir := none
    scriptsDir := none }

theorem c1_missing_skillmd_w :
    analyze_skill emptyDirPackage =
      [⟨"STRUCTURE", "SKILL.md exists", .FAIL, "SKILL.md not found"⟩] ∧
    (format_report_lines "skill" (analyze_skill emptyDirPackage)).getLast? =
      some "SUMMARY: 1 FAIL, 0 WARN, 0 PASS" :=
  c1_missing_skillmd emptyDirPackage "skill" rfl

/-- C3: `parse_frontmatter` always returns either a mapping with no
error or no mapping with an error description (it is a total function,
so no exception escapes); when a front-matter block is extracted, a
non-mapping YAML value yields the error `Frontmatter must be a YAML
dictionary` and a parser error `e` yields `Invalid YAML: e`. -/
theorem c3_parse_frontmatter_total
    (yamlParse : List Char → Except String Yaml) (content : List Char) :
    (((parse_frontmatter yamlParse content).1.isSome = true ∧
        (parse_frontmatter yamlParse content).2 = none) ∨
      ((parse_frontmatter yamlParse content).1 = none ∧
        (parse_frontmatter yamlParse content).2.isSome = true)) ∧
    (∀ b, fmBlock content = some b →
      (∀ e, yamlParse b = .error e →
        (parse_frontmatter yamlParse content).2 = some ("Invalid YAML: " ++ e)) ∧
      (∀ v, yamlParse b = .ok v → v.isDict = false →
        (parse_frontmatter yamlParse content).2 =
          some "Frontmatter must be a YAML dictionary")) := by
  constructor
  · by_cases hpre : dash3.isPrefixOf (stripComments content) = true
    · cases hfb : fmBlock content with
      | none => simp [parse_frontmatter, hpre, hfb]
      | some b =>
        cases hyp : yamlParse b with
        | error e => simp [parse_frontmatter, hpre, hfb, hyp]
        | ok v => cases v <;> simp [parse_frontmatter, hpre, hfb, hyp]
    · simp [parse_frontmatter, hpre]
  · intro b hb
    have hpre := fmBlock_dash3 content b hb
    constructor
    · intro e he
      simp [parse_frontmatter, hpre, hb, he]
    · intro v hv hd
      simp only [parse_frontmatter, hpre, not_true, hb, hv]
      cases v <;> simp_all [Yaml.isDict]

theorem c3_parse_frontmatter_total_w :
    (parse_frontmatter (fun _ => .ok (.list [])) "---\nx\n---".toList).2 =
      some "Frontmatter must be a YAML dictionary" :=
  ((c3_parse_frontmatter_total (fun _ => .ok (.list []))
      "---\nx\n---".toList).2 "x".toList (by decide)).2 (.list []) rfl rfl

/-- C10: the name and description checks test Python truthiness of the
raw YAML value, so a key mapped to a falsy value (null, false, 0, the
empty string, the empty list) is reported with the same `Missing`
FAIL record as an absent key. -/
theorem c10_falsy_fields (fm : List (String × Yaml)) (v : Yaml) :
    (List.lookup "name" fm = some v → pyTruthy v = false →
      nameRecord fm = ⟨"FRONTMATTER", "Name present", .FAIL,
        "Missing " ++ sq ++ "name" ++ sq ++ " field"⟩) ∧
    (List.lookup "name" fm = none →
      nameRecord fm = ⟨"FRONTMATTER", "Name present", .FAIL,
        "Missing " ++ sq ++ "name" ++ sq ++ " field"⟩) ∧
    (List.lookup "description" fm = some v → pyTruthy v = false →
      descRecord fm = ⟨"FRONTMATTER", "Description present", .FAIL,
        "Missing " ++ sq ++ "description" ++ sq ++ " field"⟩) ∧
    (List.lookup "description" fm = none →
      descRecord fm = ⟨"FRONTMATTER", "Description present", .FAIL,
        "Missing " ++ sq ++ "description" ++ sq ++ " field"⟩) ∧
    (pyTruthy .nul = false ∧ pyTruthy (.bool false) = false ∧
      pyTruthy (.int 0) = false ∧ pyTruthy (.str "") = false ∧
      pyTruthy (.list []) = false) := by
  refine ⟨?_, ?_, ?_, ?_, by simp [pyTruthy]⟩
  · intro hl hf; simp [nameRecord, hl, hf]
  · intro hl; simp [nameRecord, hl, pyTruthy]
  · intro hl hf; simp [descRecord, hl, hf]
  · intro hl; simp [descRecord, hl, pyTruthy]

theorem c10_falsy_fields_w :
    nameRecord [("name", Yaml.int 0)] = ⟨"FRONTMATTER", "Name present", .FAIL,
      "Missing " ++ sq ++ "name" ++ sq ++ " field"⟩ ∧
    descRecord [("description", Yaml.list [])] =
      ⟨"FRONTMATTER", "Description present", .FAIL,
        "Missing " ++ sq ++ "description" ++ sq ++ " field"⟩ :=
  ⟨(c10_falsy_fields [("name", Yaml.int 0)] (Yaml.int 0)).1 rfl rfl,
   (c10_falsy_fields [("description", Yaml.list [])] (Yaml.list [])).2.2.1 rfl rfl⟩

/-- C5: the description check is determined by the character length `d`
of the value: missing or empty yields FAIL, `d < 50` WARN, `50 ≤ d ≤
1024` PASS with the count, `d > 1024` FAIL (so 50 and 1024 PASS and
1025 FAIL). -/
theorem c5_description_check (fm : List (String × Yaml)) (v : Yaml) :
    ((List.lookup "description" fm = none ∨
        List.lookup "description" fm = some (.str "")) →
      descRecord fm = ⟨"FRONTMATTER", "Description present", .FAIL,
        "Missing " ++ sq ++ "description" ++ sq ++ " field"⟩) ∧
    (List.lookup "description" fm = some v → pyTruthy v = true →
      (((pyStr v).length < 50 →
        descRecord fm = ⟨"FRONTMATTER", "Description length", .WARN,
          toString (pyStr v).length ++ " chars (recommend >= 50)"⟩) ∧
      (50 ≤ (pyStr v).length → (pyStr v).length ≤ 1024 →
        descRecord fm = ⟨"FRONTMATTER", "Description length", .PASS,
          toString (pyStr v).length ++ " chars"⟩) ∧
      (1024 < (pyStr v).length →
        descRecord fm = ⟨"FRONTMATTER", "Description length", .FAIL,
          toString (pyStr v).length ++ " chars (max 1024)"⟩))) := by
  constructor
  · rintro (hl | hl)
    · simp [descRecord, hl, pyTruthy]
    · simp [descRecord, hl, pyTruthy]
  · intro hl ht
    refine ⟨?_, ?_, ?_⟩
    · intro hlen
      simp [descRecord, hl, ht, hlen]
    · intro h50 h1024
      simp [descRecord, hl, ht, Nat.not_lt.mpr h50, Nat.not_lt.mpr h1024]
    · intro hlen
      have h1 : ¬ (pyStr v).length < 50 := by omega
      simp [descRecord, hl, ht, h1, hlen]

theorem c5_description_check_w :
    descRecord [("description", Yaml.str (String.mk (List.replicate 50 'x')))] =
      ⟨"FRONTMATTER", "Description length", .PASS, "50 chars"⟩ :=
  ((c5_description_check [("description", Yaml.str (String.mk (List.replicate 50 'x')))]
      (Yaml.str (String.mk (List.replicate 50 'x')))).2
    rfl (by decide)).2.1 (by decide) (by decide)

/-- C6: the line-count check WARNs exactly above 500 lines, the
body-word-count check WARNs exactly above 5000 words, neither ever
FAILs, and when the front-matter delimiter is not found the body falls
back to the whole raw document. -/
theorem c6_size_checks (content : List Char) :
    (splitlinesCount content ≤ 500 →
      lineCountRecord content = ⟨"SIZE", "SKILL.md line count", .PASS,
        toString (splitlinesCount content) ++ " lines"⟩) ∧
    (500 < splitlinesCount content →
      lineCountRecord content = ⟨"SIZE", "SKILL.md line count", .WARN,
        toString (splitlinesCount content) ++ " lines (recommend <= 500)"⟩) ∧
    (wordCount (bodyOf content) ≤ 5000 →
      wordCountRecord content = ⟨"SIZE", "Body word count", .PASS,
        toString (wordCount (bodyOf content)) ++ " words"⟩) ∧
    (5000 < wordCount (bodyOf content) →
      wordCountRecord content = ⟨"SIZE", "Body word count", .WARN,
        toString (wordCount (bodyOf content)) ++ " words (recommend <= 5000)"⟩) ∧
    (lineCountRecord content).status ≠ .FAIL ∧
    (wordCountRecord content).status ≠ .FAIL ∧
    (fmBlock content = none → bodyOf content = content) := by
  refine ⟨?_, ?_, ?_, ?_, ?_, ?_, ?_⟩
  · intro h; simp [lineCountRecord, Nat.not_lt.mpr h]
  · intro h; simp [lineCountRecord, h]
  · intro h; simp [wordCountRecord, Nat.not_lt.mpr h]
  · intro h; simp [wordCountRecord, h]
  · simp only [lineCountRecord]
    by_cases h : splitlinesCount content > 500 <;> simp [h]
  · simp only [wordCountRecord]
    by_cases h : wordCount (bodyOf content) > 5000 <;> simp [h]
  · intro h
    simp only [fmBlock] at h
    simp only [bodyOf]
    by_cases hp : dash3nl.isPrefixOf (stripComments content) = true
    · simp only [hp, if_pos rfl] at h ⊢
      cases hf : findSub nlDash3 ((stripComments content).drop 4) with
      | none => simp
      | some j => rw [hf] at h; simp at h
    · simp [hp]

theorem splitOnChar_mem (sep : Char) :
    ∀ (s : List Char) (c : Char), c ∈ s → c ≠ sep →
      ∃ g ∈ splitOnChar sep s, c ∈ g := by
  intro s
  induction s with
  | nil => intro c hc; simp at hc
  | cons x rest ih =>
    intro c hc hne
    simp only [splitOnChar]
    by_cases hx : x = sep
    · subst hx
      have hcr : c ∈ rest := by
        rcases List.mem_cons.mp hc with h | h
        · exact absurd h hne
        · exact h
      obtain ⟨g, hg, hcg⟩ := ih c hcr hne
      exact ⟨g, by simp [hg], hcg⟩
    · rcases hr : splitOnChar sep rest with _ | ⟨g, gs⟩
      · exact absurd hr (splitOnChar_ne_nil sep rest)
      · simp only [hx, if_false, hr]
        rcases List.mem_cons.mp hc with h | h
        · subst h
          exact ⟨c :: g, by simp, by simp⟩
        · obtain ⟨g', hg', hcg'⟩ := ih c h hne
          rw [hr] at hg'
          rcases List.mem_cons.mp hg' with h2 | h2
          · subst h2
            exact ⟨x :: g', by simp, by simp [hcg']⟩
          · exact ⟨g', by simp [h2], hcg'⟩

theorem kebabCore_false_of_badChar (s : List Char) (c : Char)
    (hc : c ∈ s) (hk : isKebabChar c = false) (hne : c ≠ '-') :
    kebabCore s = false := by
  obtain ⟨g, hg, hcg⟩ := splitOnChar_mem '-' s c hc hne
  simp only [kebabCore]
  rw [List.all_eq_false]
  refine ⟨g, hg, ?_⟩
  have : g.all isKebabChar = false := List.all_eq_false.mpr ⟨c, hcg, by simp [hk]⟩
  simp [this]

theorem kebabCore_false_of_emptyGroup (s : List Char)
    (h : [] ∈ splitOnChar '-' s) : kebabCore s = false := by
  simp only [kebabCore]
  rw [List.all_eq_false]
  exact ⟨[], h, by simp⟩

theorem splitOnChar_append_sepFree (sep : Char) :
    ∀ (a b : List Char), (∀ c ∈ a, c ≠ sep) →
      splitOnChar sep (a ++ sep :: b) = a :: splitOnChar sep b := by
  intro a
  induction a with
  | nil => intro b _; simp [splitOnChar]
  | cons x a' ih =>
    intro b hfree
    have hx : x ≠ sep := hfree x (by simp)
    simp only [List.cons_append, splitOnChar, List.append_eq]
    rw [ih b (fun c hc => hfree c (List.mem_cons_of_mem x hc))]
    simp [hx]

theorem firstSepSplit (sep : Char) :
    ∀ (a : List Char), sep ∈ a →
      ∃ a1 a2, a = a1 ++ sep :: a2 ∧ ∀ c ∈ a1, c ≠ sep := by
  intro a
  induction a with
  | nil => intro h; simp at h
  | cons x rest ih =>
    intro h
    by_cases hx : x = sep
    · exact ⟨[], rest, by simp [hx], by simp⟩
    · have hr : sep ∈ rest := by
        rcases List.mem_cons.mp h with h1 | h1
        · exact absurd h1.symm hx
        · exact h1
      obtain ⟨a1, a2, heq, hfree⟩ := ih hr
      refine ⟨x :: a1, a2, by simp [heq], ?_⟩
      intro c hc
      rcases List.mem_cons.mp hc with h2 | h2
      · subst h2; exact hx
      · exact hfree c h2

theorem emptyGroup_sepsep (sep : Char) :
    ∀ (n : Nat) (a b : List Char), a.length ≤ n →
      [] ∈ splitOnChar sep (a ++ sep :: sep :: b) := by
  intro n
  induction n with
  | zero =>
    intro a b ha
    have h0 : a = [] := List.eq_nil_of_length_eq_zero (Nat.le_zero.mp ha)
    subst h0
    simp [splitOnChar]
  | succ n ih =>
    intro a b ha
    by_cases hin : sep ∈ a
    · obtain ⟨a1, a2, heq, hfree⟩ := firstSepSplit sep a hin
      subst heq
      simp only [List.length_append, List.length_cons] at ha
      rw [List.append_assoc, List.cons_append]
      rw [splitOnChar_append_sepFree sep a1 _ hfree]
      exact List.mem_cons_of_mem _ (ih a2 b (by omega))
    · rw [splitOnChar_append_sepFree sep a (sep :: b)
          (fun c hc he => hin (he ▸ hc))]
      refine List.mem_cons_of_mem _ ?_
      simp [splitOnChar]

theorem emptyGroup_trailing (sep : Char) :
    ∀ (n : Nat) (a : List Char), a.length ≤ n →
      [] ∈ splitOnChar sep (a ++ [sep]) := by
  intro n
  induction n with
  | zero =>
    intro a ha
    have h0 : a = [] := List.eq_nil_of_length_eq_zero (Nat.le_zero.mp ha)
    subst h0
    simp [splitOnChar]
  | succ n ih =>
    intro a ha
    by_cases hin : sep ∈ a
    · obtain ⟨a1, a2, heq, hfree⟩ := firstSepSplit sep a hin
      subst heq
      simp only [List.length_append, List.length_cons] at ha
      rw [List.append_assoc, List.cons_append]
      rw [splitOnChar_append_sepFree sep a1 _ hfree]
      exact List.mem_cons_of_mem _ (ih a2 (by omega))
    · rw [show a ++ [sep] = a ++ sep :: [] from rfl,
          splitOnChar_append_sepFree sep a []
            (fun c hc he => hin (he ▸ hc))]
      refine List.mem_cons_of_mem _ ?_
      simp [splitOnChar]

/-- The hyphen side conditions of the kebab pattern: a doubled hyphen, a
leading hyphen, or a trailing hyphen makes the core pattern fail. -/
theorem kebabCore_false_hyphens (s : List Char)
    (h : List.IsInfix ['-', '-'] s ∨ s.head? = some '-' ∨
      s.getLast? = some '-') : kebabCore s = false := by
  rcases h with h | h | h
  · obtain ⟨p, q, hpq⟩ := h
    apply kebabCore_false_of_emptyGroup
    rw [← hpq]
    have : p ++ ['-', '-'] ++ q = p ++ '-' :: '-' :: q := by simp
    rw [this]
    exact emptyGroup_sepsep '-' p.length p q (le_refl _)
  · cases s with
    | nil => simp at h
    | cons c rest =>
      simp only [List.head?_cons, Option.some.injEq] at h
      subst h
      apply kebabCore_false_of_emptyGroup
      simp [splitOnChar]
  · have hne : s ≠ [] := by rintro rfl; simp at h
    have hlast : s.getLast hne = '-' := by
      have := List.getLast?_eq_getLast s hne
      rw [this] at h
      exact (Option.some.injEq _ _).mp h
    have hs : s.dropLast ++ ['-'] = s := by
      rw [← hlast]
      exact List.dropLast_append_getLast hne
    apply kebabCore_false_of_emptyGroup
    rw [← hs]
    exact emptyGroup_trailing '-' s.dropLast.length s.dropLast (le_refl _)

theorem mem_dropLast_of_getLast (s : List Char) (c z : Char)
    (hc : c ∈ s) (hz : s.getLast? = some z) (hne : c ≠ z) :
    c ∈ s.dropLast := by
  have hs : s ≠ [] := by rintro rfl; simp at hz
  have hlast : s.getLast hs = z := by
    have := List.getLast?_eq_getLast s hs
    rw [this] at hz
    exact (Option.some.injEq _ _).mp hz
  have hsplit : s.dropLast ++ [z] = s := by
    rw [← hlast]; exact List.dropLast_append_getLast hs
  rw [← hsplit] at hc
  rcases List.mem_append.mp hc with h | h
  · exact h
  · simp at h; exact absurd h hne

theorem pyMatchKebab_false_of_badChar (s : List Char) (c : Char)
    (hc : c ∈ s) (hk : isKebabChar c = false) (h1 : c ≠ '-') (h2 : c ≠ '\n') :
    pyMatchKebab s = false := by
  simp only [pyMatchKebab, Bool.or_eq_false_iff]
  refine ⟨kebabCore_false_of_badChar s c hc hk h1, ?_⟩
  by_cases hl : s.getLast? = some '\n'
  · have hcd : c ∈ s.dropLast := mem_dropLast_of_getLast s c '\n' hc hl h2
    simp [kebabCore_false_of_badChar s.dropLast c hcd hk h1]
  · simp [hl]

theorem pyMatchKebab_false_hyphens (s : List Char)
    (h : List.IsInfix ['-', '-'] s ∨ s.head? = some '-' ∨
      s.getLast? = some '-') : pyMatchKebab s = false := by
  simp only [pyMatchKebab, Bool.or_eq_false_iff]
  refine ⟨kebabCore_false_hyphens s h, ?_⟩
  by_cases hl : s.getLast? = some '\n'
  · have hd : List.IsInfix ['-', '-'] s.dropLast ∨
        s.dropLast.head? = some '-' ∨ s.dropLast.getLast? = some '-' := by
      rcases h with h | h | h
      · obtain ⟨p, q, hpq⟩ := h
        cases q with
        | nil =>
          rw [← hpq] at hl
          simp [List.getLast?_concat] at hl
        | cons y ys =>
          left
          refine ⟨p, (y :: ys).dropLast, ?_⟩
          rw [← hpq, List.dropLast_append_of_ne_nil _ (by simp)]
      · cases s with
        | nil => simp at h
        | cons x rest =>
          cases rest with
          | nil =>
            simp only [List.head?_cons, Option.some.injEq] at h
            simp [← h] at hl
            simp_all
          | cons y ys =>
            right; left
            simp only [List.head?_cons, Option.some.injEq] at h
            simp [List.dropLast, h]
      · rw [h] at hl
        simp at hl
    simp [kebabCore_false_hyphens s.dropLast hd]
  · simp [hl]

/-- C4: the name check FAILs with the `Missing` message on an absent or
empty name, FAILs quoting the offending value when the kebab pattern
does not match (in particular for any uppercase character or
underscore, and for doubled, leading or trailing hyphens), FAILs with
the actual length for a matching name longer than 64 characters, and
PASSes echoing the name otherwise. -/
theorem c4_name_check (fm : List (String × Yaml)) (v : Yaml) :
    ((List.lookup "name" fm = none ∨ List.lookup "name" fm = some (.str "")) →
      nameRecord fm = ⟨"FRONTMATTER", "Name present", .FAIL,
        "Missing " ++ sq ++ "name" ++ sq ++ " field"⟩) ∧
    (List.lookup "name" fm = some v → pyTruthy v = true →
      ((pyMatchKebab (pyStr v).toList = false →
          nameRecord fm = ⟨"FRONTMATTER", "Name format", .FAIL,
            sq ++ pyStr v ++ sq ++ " is not valid kebab-case"⟩) ∧
        (pyMatchKebab (pyStr v).toList = true → 64 < (pyStr v).length →
          nameRecord fm = ⟨"FRONTMATTER", "Name length", .FAIL,
            toString (pyStr v).length ++ " chars (max 64)"⟩) ∧
        (pyMatchKebab (pyStr v).toList = true → (pyStr v).length ≤ 64 →
          nameRecord fm = ⟨"FRONTMATTER", "Name valid", .PASS, pyStr v⟩))) ∧
    (∀ s : List Char, ∀ c ∈ s, (('A' ≤ c ∧ c ≤ 'Z') ∨ c = '_') →
      pyMatchKebab s = false) ∧
    (∀ s : List Char,
      (List.IsInfix ['-', '-'] s ∨ s.head? = some '-' ∨
        s.getLast? = some '-') →
      pyMatchKebab s = false) := by
  refine ⟨?_, ?_, ?_, pyMatchKebab_false_hyphens⟩
  · rintro (hl | hl)
    · simp [nameRecord, hl, pyTruthy]
    · simp [nameRecord, hl, pyTruthy]
  · intro hl ht
    refine ⟨?_, ?_, ?_⟩
    · intro hm
      have hm' : pyMatchKebab (pyStr v).data = false := hm
      simp [nameRecord, hl, ht, hm']
    · intro hm hlen
      have hm' : pyMatchKebab (pyStr v).data = true := hm
      simp [nameRecord, hl, ht, hm', hlen]
    · intro hm hlen
      have hm' : pyMatchKebab (pyStr v).data = true := hm
      simp [nameRecord, hl, ht, hm', Nat.not_lt.mpr hlen]
  · intro s c hc hcls
    rcases hcls with ⟨hA, hZ⟩ | rfl
    · have hk : isKebabChar c = false := by
        simp only [isKebabChar]
        simp [Char.le_def, UInt32.le_def, BitVec.le_def] at hA hZ ⊢
        omega
      have h1 : c ≠ '-' := by
        rintro rfl
        simp [Char.le_def, UInt32.le_def, BitVec.le_def] at hA
      have h2 : c ≠ '\n' := by
        rintro rfl
        simp [Char.le_def, UInt32.le_def, BitVec.le_def] at hA
      exact pyMatchKebab_false_of_badChar s c hc hk h1 h2
    · exact pyMatchKebab_false_of_badChar s '_' hc (by decide) (by decide) (by decide)

theorem c4_name_check_w :
    nameRecord [("name", Yaml.str "my-skill")] =
      ⟨"FRONTMATTER", "Name valid", .PASS, "my-skill"⟩ ∧
    pyMatchKebab "My-skill".toList = false :=
  ⟨((c4_name_check [("name", Yaml.str "my-skill")] (Yaml.str "my-skill")).2.1
      rfl (by decide)).2.2 (by decide) (by decide),
    (c4_name_check [] Yaml.nul).2.2.1 "My-skill".toList 'M' (by decide)
      (Or.inl (by decide))⟩

theorem c6_size_checks_w :
    lineCountRecord "hi\nthere".toList =
      ⟨"SIZE", "SKILL.md line count", .PASS, "2 lines"⟩ ∧
    bodyOf "hi\nthere".toList = "hi\nthere".toList :=
  ⟨(c6_size_checks "hi\nthere".toList).1 (by decide),
   (c6_size_checks "hi\nthere".toList).2.2.2.2.2.2 (by decide)⟩

/-- When `parse_frontmatter` reports an error, the FRONTMATTER section
is that single FAIL record. -/
theorem frontmatterRecords_err (yamlParse : List Char → Except String Yaml)
    (content : List Char) (e : String)
    (h : (parse_frontmatter yamlParse content).2 = some e) :
    frontmatterRecords yamlParse content =
      [⟨"FRONTMATTER", "Valid frontmatter", .FAIL, e⟩] := by
  unfold frontmatterRecords
  rcases hp : parse_frontmatter yamlParse content with ⟨fst, snd⟩
  rw [hp] at h
  simp only at h
  subst h
  rfl

def badFmPackage : Package :=
  { hasSkillMd := true
    content := "hello".toList
    yamlParse := fun _ => .error "unused"
    allFiles := []
    hrefExists := fun _ => false
    refsDir := none
    scriptsDir := none }

/-- C2 counterexample: a package whose `SKILL.md` exists but has no
front matter.  The malformed front matter is captured as a FAIL record,
yet the name and description checks emit no record at all — they are
skipped, contradicting the claim that they still run to completion and
emit their records for every such package. -/
theorem c2_counterexample :
    analyze_skill badFmPackage =
      [⟨"STRUCTURE", "SKILL.md exists", .PASS, ""⟩,
       ⟨"FRONTMATTER", "Valid frontmatter", .FAIL, "No YAML frontmatter found"⟩,
       ⟨"SIZE", "SKILL.md line count", .PASS, "1 lines"⟩,
       ⟨"SIZE", "Body word count", .PASS, "1 words"⟩,
       ⟨"FILES", "Directories", .INFO, "none"⟩,
       ⟨"FILES", "Total files", .INFO, "0"⟩,
       ⟨"FILES", "Extraneous files", .PASS, "none detected"⟩,
       ⟨"REFERENCES", "Link integrity", .INFO, "No internal links found"⟩,
       ⟨"REFERENCES", "References directory", .INFO, "No references/ directory"⟩,
       ⟨"SCRIPTS", "Scripts directory", .INFO, "No scripts/ directory"⟩] ∧
    (analyze_skill badFmPackage).countP
      (fun r => r.check == "Name present" || r.check == "Name format" ||
        r.check == "Name length" || r.check == "Name valid" ||
        r.check == "Description present" || r.check == "Description length") = 0 := by
  constructor
  · decide
  · decide

/-- C2 amended: for every package whose `SKILL.md` exists, a
front-matter parse error is captured as a single FRONTMATTER FAIL
record (the field checks over the parsed mapping are then skipped),
while the checks of every other section — line count, word count, file
structure, link integrity, references, scripts — always run and emit
their records. -/
theorem c2_amended_sections_always_run (p : Package) (h : p.hasSkillMd = true) :
    (∀ e, (parse_frontmatter p.yamlParse p.content).2 = some e →
      ((⟨"FRONTMATTER", "Valid frontmatter", .FAIL, e⟩ : CheckRecord) ∈
          analyze_skill p ∧
        frontmatterRecords p.yamlParse p.content =
          [⟨"FRONTMATTER", "Valid frontmatter", .FAIL, e⟩])) ∧
    lineCountRecord p.content ∈ analyze_skill p ∧
    wordCountRecord p.content ∈ analyze_skill p ∧
    (∀ r ∈ fileRecords p.allFiles, r ∈ analyze_skill p) ∧
    linkRecord p.hrefExists (bodyOf p.content) ∈ analyze_skill p ∧
    (∀ r ∈ refRecords p.refsDir (relativeLinks (bodyOf p.content)),
      r ∈ analyze_skill p) ∧
    (∀ r ∈ scriptRecords p.scriptsDir, r ∈ analyze_skill p) := by
  refine ⟨?_, ?_, ?_, ?_, ?_, ?_, ?_⟩
  · intro e he
    have hfm := frontmatterRecords_err p.yamlParse p.content e he
    refine ⟨?_, hfm⟩
    simp [analyze_skill, h, hfm]
  · simp [analyze_skill, h]
  · simp [analyze_skill, h]
  · intro r hr
    simp [analyze_skill, h, hr]
  · simp [analyze_skill, h]
  · intro r hr
    simp [analyze_skill, h, hr]
  · intro r hr
    simp [analyze_skill, h, hr]

theorem c2_amended_sections_always_run_w :
    (⟨"FRONTMATTER", "Valid frontmatter", .FAIL,
        "No YAML frontmatter found"⟩ : CheckRecord) ∈ analyze_skill badFmPackage ∧
    lineCountRecord badFmPackage.content ∈ analyze_skill badFmPackage :=
  ⟨((c2_amended_sections_always_run badFmPackage rfl).1
      "No YAML frontmatter found" (by decide)).1,
    (c2_amended_sections_always_run badFmPackage rfl).2.1⟩

/-- C7: the link-integrity check emits exactly one record — INFO when
there are no relative links, PASS with the `valid/total` ratio when all
relative links resolve, and a single FAIL listing every broken href in
order of appearance otherwise; links are the markdown links extracted
outside fenced code blocks, with external hrefs (`http://`, `https://`,
`#`, `mailto:`) excluded. -/
theorem c7_link_integrity (pe : List Char → Bool) (body : List Char) :
    (relativeLinks body = [] →
      linkRecord pe body =
        ⟨"REFERENCES", "Link integrity", .INFO, "No internal links found"⟩) ∧
    (relativeLinks body ≠ [] → brokenOf pe (relativeLinks body) = [] →
      linkRecord pe body = ⟨"REFERENCES", "Link integrity", .PASS,
        toString (relativeLinks body).length ++ "/" ++
          toString (relativeLinks body).length ++ " links valid"⟩) ∧
    (brokenOf pe (relativeLinks body) ≠ [] →
      linkRecord pe body = ⟨"REFERENCES", "Link integrity", .FAIL,
        "Broken: " ++ joinComma ((brokenOf pe (relativeLinks body)).map String.mk)⟩) ∧
    (∀ t h : List Char, (t, h) ∈ relativeLinks body ↔
      ((t, h) ∈ extract_markdown_links body ∧ isExternalHref h = false)) := by
  refine ⟨?_, ?_, ?_, ?_⟩
  · intro hrel
    simp [linkRecord, hrel]
  · intro hne hb
    have hall : ∀ l ∈ relativeLinks body, pe l.2 = true := by
      intro l hl
      by_contra hcon
      have hmem : l ∈ (relativeLinks body).filter (fun l => !pe l.2) := by
        rw [List.mem_filter]
        exact ⟨hl, by simp [Bool.eq_false_iff.mpr hcon]⟩
      rw [show ((relativeLinks body).filter (fun l => !pe l.2)) = [] from
        List.map_eq_nil.mp hb] at hmem
      simp at hmem
    have hfilter : (relativeLinks body).filter (fun l => pe l.2) =
        relativeLinks body := List.filter_eq_self.mpr hall
    simp only [linkRecord, brokenOf] at *
    rw [if_neg (by simp [List.isEmpty_iff, hne]), hfilter, if_pos (by simp [hb])]
  · intro hb
    have hne : relativeLinks body ≠ [] := by
      intro hrel
      apply hb
      simp [brokenOf, hrel]
    simp only [linkRecord, brokenOf] at *
    rw [if_neg (by simp [List.isEmpty_iff, hne]), if_neg (by simp [List.isEmpty_iff, hb])]
  · intro t h
    simp [relativeLinks, List.mem_filter]

theorem c7_link_integrity_w :
    linkRecord (fun _ => true) "[a](x.md)".toList =
      ⟨"REFERENCES", "Link integrity", .PASS, "1/1 links valid"⟩ :=
  (c7_link_integrity (fun _ => true) "[a](x.md)".toList).2.1
    (by decide) (by decide)

/-- C8: a direct non-hidden file of `references/` is linked exactly when
its base name is among the base names of `references/`-prefixed relative
hrefs or its literal `references/<f>` path is among the relative hrefs;
a file linked literally anywhere in the body is never reported
unlinked; a file appearing once in the listing and in no link is
reported exactly once; unlinked files produce one WARN listing them and
otherwise a PASS; a missing directory yields a single INFO record. -/
theorem c8_unlinked_references (entries : List DirEntry)
    (rel : List (List Char × List Char)) (f : List Char) :
    (f ∈ visibleFiles entries →
      (f ∉ unlinkedOf entries rel ↔
        (f ∈ linkedBasenames rel ∨ (refsDirPath ++ f) ∈ relHrefs rel))) ∧
    ((refsDirPath ++ f) ∈ relHrefs rel → f ∉ unlinkedOf entries rel) ∧
    (List.count f (visibleFiles entries) = 1 →
      f ∉ linkedBasenames rel → (refsDirPath ++ f) ∉ relHrefs rel →
      List.count f (unlinkedOf entries rel) = 1) ∧
    (unlinkedOf entries rel = [] →
      refRecords (some entries) rel =
        [⟨"REFERENCES", "All references linked", .PASS, ""⟩]) ∧
    (unlinkedOf entries rel ≠ [] →
      refRecords (some entries) rel =
        [⟨"REFERENCES", "Unlinked reference files", .WARN,
          joinComma ((unlinkedOf entries rel).map String.mk)⟩]) ∧
    refRecords none rel =
      [⟨"REFERENCES", "References directory", .INFO,
        "No references/ directory"⟩] := by
  have hchar : f ∈ unlinkedOf entries rel ↔
      (f ∈ visibleFiles entries ∧
        (f ∉ linkedBasenames rel ∧ (refsDirPath ++ f) ∉ relHrefs rel)) := by
    simp [unlinkedOf, List.mem_filter]
  refine ⟨?_, ?_, ?_, ?_, ?_, rfl⟩
  · intro hf
    constructor
    · intro hnot
      by_contra hcon
      push_neg at hcon
      exact hnot (hchar.mpr ⟨hf, hcon.1, hcon.2⟩)
    · rintro (h1 | h1) hm
      · exact (hchar.mp hm).2.1 h1
      · exact (hchar.mp hm).2.2 h1
  · intro hlit hmem
    exact (hchar.mp hmem).2.2 hlit
  · intro hcount hc1 hc2
    have hfmem : f ∈ visibleFiles entries := by
      rw [← List.count_pos_iff]
      omega
    have hmem : f ∈ unlinkedOf entries rel := hchar.mpr ⟨hfmem, hc1, hc2⟩
    have hle : List.count f (unlinkedOf entries rel) ≤
        List.count f (visibleFiles entries) :=
      (List.filter_sublist _).count_le f
    have hge : 0 < List.count f (unlinkedOf entries rel) :=
      List.count_pos_iff.mpr hmem
    omega
  · intro hu
    simp [refRecords, hu]
  · intro hu
    simp [refRecords, List.isEmpty_iff, hu]

/-! ### The spec-side grouped reporter (for claim C9)

The reporter contract of the spec reads: group the accumulated record
sequence by section using first-seen order, preserving emission order
within a section, render one block per section separated by blank
lines, and count FAIL/WARN/PASS (not INFO) in the summary.  The
definitions below transcribe those words; they are compared with the
embedded `format_report_lines`. -/

/-- The distinct section names in first-seen order. -/
def firstSeenSections (recs : List CheckRecord) : List String :=
  dedupFirst (recs.map (fun r => r.sec))

/-- The rendered block of one section: its header line followed by the
lines of all its records, in emission order. -/
def sectionBlock (recs : List CheckRecord) (s : String) : List String :=
  s :: ((recs.filter (fun r => r.sec == s)).map renderLine)

/-- Blocks separated by single blank lines. -/
def joinBlocks : List (List String) → List String
  | [] => []
  | [b] => b
  | b :: bs => b ++ "" :: joinBlocks bs

/-- The grouped report of the spec: title, blank, one block per section
in first-seen order, blank, and a summary counting FAIL/WARN/PASS
records (INFO excluded). -/
def groupedReportLines (skillName : String) (recs : List CheckRecord) : List String :=
  ("=== Skill Analysis: " ++ skillName ++ " ===") :: "" ::
    (joinBlocks ((firstSeenSections recs).map (sectionBlock recs)) ++
      ["", "SUMMARY: " ++
        toString (recs.countP (fun r => r.status == .FAIL)) ++ " FAIL, " ++
        toString (recs.countP (fun r => r.status == .WARN)) ++ " WARN, " ++
        toString (recs.countP (fun r => r.status == .PASS)) ++ " PASS"])

/-- Remove adjacent duplicates of a section sequence; the records of a
list are section-contiguous when the collapsed sequence has no
duplicate left. -/
def collapseAdj : List String → List String
  | [] => []
  | [a] => [a]
  | a :: b :: rest =>
    if a = b then collapseAdj (b :: rest) else a :: collapseAdj (b :: rest)

def SectionsContiguous (recs : List CheckRecord) : Prop :=
  (collapseAdj (recs.map (fun r => r.sec))).Nodup

/-! Helper lemmas for the reporter equivalence. -/

theorem dedupFirstGo_fuel {α : Type} [DecidableEq α] :
    ∀ (n : Nat) (l : List α) (fuel : Nat), l.length ≤ n → l.length ≤ fuel →
      dedupFirstGo fuel l = dedupFirstGo l.length l := by
  intro n
  induction n with
  | zero =>
    intro l fuel h1 _
    have h0 : l = [] := List.eq_nil_of_length_eq_zero (Nat.le_zero.mp h1)
    subst h0
    cases fuel <;> rfl
  | succ n ih =>
    intro l fuel h1 h2
    cases l with
    | nil => cases fuel <;> rfl
    | cons x xs =>
      cases fuel with
      | zero => simp at h2
      | succ fuel =>
        simp only [dedupFirstGo, List.length_cons]
        congr 1
        have hfil := List.length_filter_le (fun y => decide (y ≠ x)) xs
        simp only [List.length_cons] at h1 h2
        rw [ih (xs.filter (fun y => decide (y ≠ x))) fuel (by omega) (by omega),
          ih (xs.filter (fun y => decide (y ≠ x))) xs.length (by omega) hfil]

/-- The defining equation of `dedupFirst` on a cons cell. -/
theorem dedupFirst_cons {α : Type} [DecidableEq α] (x : α) (xs : List α) :
    dedupFirst (x :: xs) =
      x :: dedupFirst (xs.filter (fun y => decide (y ≠ x))) := by
  simp only [dedupFirst, List.length_cons, dedupFirstGo]
  congr 1
  exact dedupFirstGo_fuel xs.length _ xs.length
    (List.length_filter_le _ _) (List.length_filter_le _ _)

theorem dedupFirstGo_subset {α : Type} [DecidableEq α] :
    ∀ (fuel : Nat) (l : List α) (x : α), x ∈ dedupFirstGo fuel l → x ∈ l := by
  intro fuel
  induction fuel with
  | zero => intro l x h; simp [dedupFirstGo] at h
  | succ fuel ih =>
    intro l x h
    cases l with
    | nil => simp [dedupFirstGo] at h
    | cons y ys =>
      simp only [dedupFirstGo] at h
      rcases List.mem_cons.mp h with h1 | h1
      · simp [h1]
      · have := ih _ x h1
        exact List.mem_cons_of_mem y (List.mem_filter.mp this).1

theorem dedupFirst_subset {α : Type} [DecidableEq α] (l : List α) (x : α)
    (h : x ∈ dedupFirst l) : x ∈ l :=
  dedupFirstGo_subset l.length l x h

theorem collapseAdj_mem :
    ∀ (l : List String) (x : String), x ∈ collapseAdj l ↔ x ∈ l := by
  intro l
  induction l with
  | nil => intro x; simp [collapseAdj]
  | cons a rest ih =>
    intro x
    cases rest with
    | nil => simp [collapseAdj]
    | cons b rest' =>
      simp only [collapseAdj]
      by_cases hab : a = b
      · rw [if_pos hab, ih x]
        subst hab
        simp only [List.mem_cons]
        tauto
      · rw [if_neg hab]
        simp only [List.mem_cons, ih x]

theorem collapseAdj_absorb (s : String) :
    ∀ (bl t : List String), (∀ y ∈ bl, y = s) →
      collapseAdj (s :: (bl ++ t)) = collapseAdj (s :: t) := by
  intro bl
  induction bl with
  | nil => intro t _; rfl
  | cons y bl' ih =>
    intro t hall
    have hy : y = s := hall y (by simp)
    subst hy
    have step : collapseAdj (y :: y :: (bl' ++ t)) = collapseAdj (y :: (bl' ++ t)) := by
      simp [collapseAdj]
    calc collapseAdj (y :: (y :: bl' ++ t)) = collapseAdj (y :: (bl' ++ t)) := step
      _ = collapseAdj (y :: t) := ih t (fun z hz => hall z (by simp [hz]))

theorem collapseAdj_cons_ne (s y : String) (t : List String) (h : y ≠ s) :
    collapseAdj (s :: y :: t) = s :: collapseAdj (y :: t) := by
  have hne : ¬ s = y := fun hc => h hc.symm
  simp [collapseAdj, hne]

theorem dropWhile_head_not {α : Type} (p : α → Bool) :
    ∀ (l : List α) (x : α) (xs : List α),
      l.dropWhile p = x :: xs → p x = false := by
  intro l
  induction l with
  | nil => intro x xs h; simp [List.dropWhile] at h
  | cons a rest ih =>
    intro x xs h
    rw [List.dropWhile_cons] at h
    by_cases hp : p a = true
    · rw [if_pos hp] at h
      exact ih x xs h
    · rw [if_neg hp] at h
      cases h
      exact Bool.eq_false_iff.mpr hp

theorem sectionLines_block (s : String) :
    ∀ (blk rest : List CheckRecord), (∀ r ∈ blk, r.sec = s) →
      sectionLines (some s) (blk ++ rest) =
        blk.map renderLine ++ sectionLines (some s) rest := by
  intro blk
  induction blk with
  | nil => intro rest _; simp
  | cons r blk' ih =>
    intro rest hall
    have hr : r.sec = s := hall r (by simp)
    have ih' := ih rest (fun x hx => hall x (List.mem_cons_of_mem r hx))
    simp [sectionLines, hr, ih']

theorem sectionLines_newSection (s : String) (r : CheckRecord)
    (rs : List CheckRecord) (h : r.sec ≠ s) :
    sectionLines (some s) (r :: rs) = "" :: sectionLines none (r :: rs) := by
  simp only [sectionLines]
  rw [if_neg (by simp only [Option.some.injEq]; exact fun hc => h hc.symm),
    if_neg (by simp)]
  simp

/-- The reporter loop counters equal the FAIL/WARN/PASS record counts
(INFO records are not counted). -/
theorem tallyOf_counts : ∀ recs : List CheckRecord,
    tallyOf recs = (recs.countP (fun r => r.status == .PASS),
      recs.countP (fun r => r.status == .WARN),
      recs.countP (fun r => r.status == .FAIL)) := by
  intro recs
  induction recs with
  | nil => simp [tallyOf]
  | cons r rs ih =>
    simp only [tallyOf, ih]
    cases hst : r.status <;> simp [List.countP_cons, hst]

theorem joinBlocks_cons (b : List String) (bs : List (List String))
    (h : bs ≠ []) : joinBlocks (b :: bs) = b ++ "" :: joinBlocks bs := by
  cases bs with
  | nil => exact absurd rfl h
  | cons b2 bs2 => rfl

theorem sectionLines_grouped :
    ∀ (n : Nat) (recs : List CheckRecord), recs.length ≤ n →
      SectionsContiguous recs →
      sectionLines none recs =
        joinBlocks ((firstSeenSections recs).map (sectionBlock recs)) := by
  intro n
  induction n with
  | zero =>
    intro recs h1 _
    have h0 : recs = [] := List.eq_nil_of_length_eq_zero (Nat.le_zero.mp h1)
    subst h0
    rfl
  | succ n ih =>
    intro recs h1 hcont
    cases recs with
    | nil => rfl
    | cons r rs =>
      have hsplit : rs.takeWhile (fun x => x.sec == r.sec) ++
          rs.dropWhile (fun x => x.sec == r.sec) = rs :=
        List.takeWhile_append_dropWhile (fun x => x.sec == r.sec) rs
      have hblkall : ∀ x ∈ rs.takeWhile (fun x => x.sec == r.sec), x.sec = r.sec := by
        intro x hx
        have := List.mem_takeWhile_imp hx
        simpa using this
      have hblkall2 : ∀ y ∈ (rs.takeWhile (fun x => x.sec == r.sec)).map
          (fun x => x.sec), y = r.sec := by
        intro y hy
        obtain ⟨x, hx, rfl⟩ := List.mem_map.mp hy
        exact hblkall x hx
      -- collapse the leading block in the section sequence
      have hcoll : collapseAdj ((r :: rs).map (fun x => x.sec)) =
          collapseAdj (r.sec ::
            (rs.dropWhile (fun x => x.sec == r.sec)).map (fun x => x.sec)) := by
        have : (r :: rs).map (fun x => x.sec) = r.sec ::
            ((rs.takeWhile (fun x => x.sec == r.sec)).map (fun x => x.sec) ++
              (rs.dropWhile (fun x => x.sec == r.sec)).map (fun x => x.sec)) := by
          rw [← List.map_append, hsplit]
          simp
        rw [this, collapseAdj_absorb r.sec _ _ hblkall2]
      cases hrest : rs.dropWhile (fun x => x.sec == r.sec) with
      | nil =>
        -- a single section: one block
        have hrs : rs = rs.takeWhile (fun x => x.sec == r.sec) := by
          conv_lhs => rw [← hsplit]
          rw [hrest]
          simp
        have hfilter : (r :: rs).filter (fun x => x.sec == r.sec) = r :: rs := by
          rw [List.filter_eq_self]
          intro x hx
          rcases List.mem_cons.mp hx with h | h
          · simp [h]
          · rw [hrs] at h
            simp [hblkall x h]
        have hsecs : firstSeenSections (r :: rs) = [r.sec] := by
          simp only [firstSeenSections, List.map_cons, dedupFirst_cons]
          have : (rs.map (fun x => x.sec)).filter
              (fun y => decide (y ≠ r.sec)) = [] := by
            rw [List.filter_eq_nil_iff]
            intro y hy
            have : y = r.sec := by
              obtain ⟨x, hx, rfl⟩ := List.mem_map.mp hy
              rw [hrs] at hx
              exact hblkall x hx
            simp [this]
          rw [this]
          rfl
        rw [hsecs]
        simp only [List.map_cons, List.map_nil, joinBlocks, sectionBlock, hfilter]
        -- left side: unfold the loop over a uniform block
        have : sectionLines none (r :: rs) =
            r.sec :: renderLine r :: sectionLines (some r.sec) rs := by
          simp [sectionLines]
        rw [this]
        conv_lhs => rw [hrs]
        rw [show sectionLines (some r.sec)
              (rs.takeWhile (fun x => x.sec == r.sec)) =
            sectionLines (some r.sec)
              (rs.takeWhile (fun x => x.sec == r.sec) ++ []) by simp]
        rw [sectionLines_block r.sec _ [] hblkall]
        simp only [sectionLines, List.append_nil]
        simp [← hrs]
      | cons x rest' =>
        have hxne : x.sec ≠ r.sec := by
          have := dropWhile_head_not (fun x => x.sec == r.sec) rs x rest' hrest
          simpa using this
        -- contiguity facts for the tail
        have hcoll2 : collapseAdj ((r :: rs).map (fun x => x.sec)) =
            r.sec :: collapseAdj ((x :: rest').map (fun y => y.sec)) := by
          rw [hcoll, hrest]
          exact collapseAdj_cons_ne r.sec x.sec _ hxne
        have hnotin : r.sec ∉ (x :: rest').map (fun y => y.sec) := by
          intro hmem
          have h2 : r.sec ∈ collapseAdj ((x :: rest').map (fun y => y.sec)) :=
            (collapseAdj_mem _ _).mpr hmem
          have := hcont
          rw [SectionsContiguous, hcoll2, List.nodup_cons] at this
          exact this.1 h2
        have hcont' : SectionsContiguous (x :: rest') := by
          have := hcont
          rw [SectionsContiguous, hcoll2, List.nodup_cons] at this
          exact this.2
        have hlen' : (x :: rest').length ≤ n := by
          have := congrArg List.length hsplit
          simp only [List.length_append] at this
          rw [hrest] at this
          simp only [List.length_cons] at this h1 ⊢
          omega
        have hih := ih (x :: rest') hlen' hcont'
        -- the sections of the tail avoid r.sec
        have htailne : ∀ y ∈ (x :: rest').map (fun z => z.sec), y ≠ r.sec := by
          intro y hy hc
          exact hnotin (hc ▸ hy)
        -- firstSeenSections decomposition
        have hsecs : firstSeenSections (r :: rs) =
            r.sec :: firstSeenSections (x :: rest') := by
          simp only [firstSeenSections, List.map_cons]
          rw [dedupFirst_cons]
          congr 1
          have hmapsplit : rs.map (fun z => z.sec) =
              (rs.takeWhile (fun z => z.sec == r.sec)).map (fun z => z.sec) ++
                (x :: rest').map (fun z => z.sec) := by
            rw [← hrest, ← List.map_append, hsplit]
          have hb : ((rs.takeWhile (fun z => z.sec == r.sec)).map
              (fun z => z.sec)).filter (fun y => decide (y ≠ r.sec)) = [] := by
            rw [List.filter_eq_nil_iff]
            intro y hy
            simp [hblkall2 y hy]
          have ht : ((x :: rest').map (fun z => z.sec)).filter
              (fun y => decide (y ≠ r.sec)) = (x :: rest').map (fun z => z.sec) := by
            rw [List.filter_eq_self]
            intro y hy
            simp [htailne y hy]
          rw [hmapsplit, List.filter_append, hb, ht]
          simp
        -- head block of the grouped rendering
        have hfilterhead : (r :: rs).filter (fun z => z.sec == r.sec) =
            r :: rs.takeWhile (fun z => z.sec == r.sec) := by
          rw [List.filter_cons, if_pos (by simp)]
          congr 1
          conv_lhs => rw [← hsplit]
          rw [List.filter_append, hrest]
          have hbk : (rs.takeWhile (fun z => z.sec == r.sec)).filter
              (fun z => z.sec == r.sec) = rs.takeWhile (fun z => z.sec == r.sec) := by
            rw [List.filter_eq_self]
            intro z hz
            simp [hblkall z hz]
          have hrt : (x :: rest').filter (fun z => z.sec == r.sec) = [] := by
            rw [List.filter_eq_nil_iff]
            intro z hz
            have hzne : z.sec ≠ r.sec := by
              intro hc
              exact hnotin (List.mem_map.mpr ⟨z, hz, hc⟩)
            simp [hzne]
          rw [hbk, hrt]
          simp
        -- tail blocks are independent of the leading records
        have hblocks : (firstSeenSections (x :: rest')).map
            (sectionBlock (r :: rs)) = (firstSeenSections (x :: rest')).map
              (sectionBlock (x :: rest')) := by
          apply List.map_congr_left
          intro s' hs'
          have hs'mem : s' ∈ (x :: rest').map (fun z => z.sec) :=
            dedupFirst_subset _ s' hs'
          have hs'ne : s' ≠ r.sec := htailne s' hs'mem
          simp only [sectionBlock]
          congr 1
          congr 1
          rw [List.filter_cons,
            if_neg (by simp only [beq_iff_eq]; exact fun hc => hs'ne hc.symm)]
          conv_lhs => rw [← hsplit]
          rw [List.filter_append, hrest]
          have hbk : (rs.takeWhile (fun z => z.sec == r.sec)).filter
              (fun z => z.sec == s') = [] := by
            rw [List.filter_eq_nil_iff]
            intro z hz
            have hzr : z.sec = r.sec := hblkall z hz
            simp only [hzr, beq_iff_eq]
            exact fun hc => hs'ne hc.symm
          rw [hbk]
          simp
        -- assemble
        rw [hsecs, List.map_cons, hblocks]
        rw [joinBlocks_cons _ _ (by
          simp only [firstSeenSections, List.map_cons, dedupFirst_cons]
          simp)]
        rw [← hih]
        -- now reduce the loop side
        have hL : sectionLines none (r :: rs) =
            r.sec :: renderLine r :: sectionLines (some r.sec) rs := by
          simp [sectionLines]
        rw [hL]
        conv_lhs => rw [show rs = rs.takeWhile (fun z => z.sec == r.sec) ++
          (x :: rest') by rw [← hrest, hsplit]]
        rw [sectionLines_block r.sec _ _ hblkall]
        rw [sectionLines_newSection r.sec x rest' hxne]
        simp only [sectionBlock, hfilterhead]
        simp

/-- C9 (amended): `format_report` is a pure function of the record
list; its trailing summary line counts FAIL, WARN and PASS records
(INFO excluded) for every record list; and whenever each section's
records are contiguous in the list — as `analyze_skill` emits them —
the rendering equals the grouped rendering (one block per section, in
first-seen order, preserving emission order within a section).  A
section whose records reappear after another section is instead
re-rendered as a fresh block at each reappearance. -/
theorem c9_format_report (skillName : String) (recs : List CheckRecord) :
    (format_report_lines skillName recs).getLast? =
      some ("SUMMARY: " ++
        toString (recs.countP (fun r => r.status == .FAIL)) ++ " FAIL, " ++
        toString (recs.countP (fun r => r.status == .WARN)) ++ " WARN, " ++
        toString (recs.countP (fun r => r.status == .PASS)) ++ " PASS") ∧
    (SectionsContiguous recs →
      format_report_lines skillName recs = groupedReportLines skillName recs) := by
  have hsum : summaryLine recs =
      "SUMMARY: " ++
        toString (recs.countP (fun r => r.status == .FAIL)) ++ " FAIL, " ++
        toString (recs.countP (fun r => r.status == .WARN)) ++ " WARN, " ++
        toString (recs.countP (fun r => r.status == .PASS)) ++ " PASS" := by
    simp [summaryLine, tallyOf_counts recs]
  constructor
  · have hform : format_report_lines skillName recs =
        (("=== Skill Analysis: " ++ skillName ++ " ===") :: "" ::
          (sectionLines none recs ++ [""])) ++ [summaryLine recs] := by
      simp [format_report_lines]
    rw [hform, List.getLast?_concat, hsum]
  · intro hcont
    simp only [format_report_lines, groupedReportLines]
    rw [sectionLines_grouped recs.length recs (le_refl _) hcont, hsum]

def exRecs : List CheckRecord :=
  [⟨"A", "c1", .PASS, ""⟩, ⟨"B", "c2", .PASS, ""⟩, ⟨"A", "c3", .PASS, ""⟩]

/-- C9 counterexample: on a record list whose section `A` records are
interleaved with a section `B` record, `format_report` does not group:
it renders section `A` as two separate blocks (a new header at each
section change), so its output differs from the grouped
first-seen-order rendering the claim describes. -/
theorem c9_counterexample_interleaved :
    format_report_lines "pkg" exRecs ≠ groupedReportLines "pkg" exRecs := by
  decide

theorem c9_format_report_w :
    format_report_lines "pkg" [⟨"A", "c1", .PASS, ""⟩, ⟨"B", "c2", .WARN, "d"⟩] =
      groupedReportLines "pkg" [⟨"A", "c1", .PASS, ""⟩, ⟨"B", "c2", .WARN, "d"⟩] :=
  (c9_format_report "pkg"
    [⟨"A", "c1", .PASS, ""⟩, ⟨"B", "c2", .WARN, "d"⟩]).2
    (by simp only [SectionsContiguous]; decide)

theorem c8_unlinked_references_w :
    "a.md".toList ∉ unlinkedOf [⟨"a.md".toList, true, false⟩]
      [("t".toList, "references/a.md".toList)] ∧
    refRecords (some [⟨"a.md".toList, true, false⟩]) [] =
      [⟨"REFERENCES", "Unlinked reference files", .WARN, "a.md"⟩] :=
  ⟨(c8_unlinked_references [⟨"a.md".toList, true, false⟩]
      [("t".toList, "references/a.md".toList)] "a.md".toList).2.1 (by decide),
    (c8_unlinked_references [⟨"a.md".toList, true, false⟩] [] "a.md".toList).2.2.2.2.1
      (by decide)⟩

end SkillAnalyzer
